import Mathlib

/-!
Verification of the crawl-and-extract engine in `src/main.py`.

The HTML DOM handed back by BeautifulSoup is embedded as a tree of nodes;
`find_all` and `get_text(strip=True)` are translated as recursive descent
over that tree.  The table-normalization block, the child-link collection,
the lock-guarded artifact counter and the recursive crawl of `scrap_table`
/ `run_all_scrapes` are translated as executable Lean functions.  External
capabilities (HTTP fetch, URL resolution via `urllib.parse.urljoin`, the
JSON write) are passed in as explicit function parameters, mirroring the
spec's treatment of them as black-box collaborators.
-/

/-- A parsed HTML node as exposed by BeautifulSoup: either a text fragment
or an element with a tag, an optional `href` attribute and child nodes. -/
inductive Node where
  | textNode (s : String) : Node
  | elem (tag : String) (href : Option String) (children : List Node) : Node
deriving Repr

/-- Whitespace test used by `str.strip`. -/
def isSpaceChar (c : Char) : Bool :=
  c = ' ' || c = '\t' || c = '\n' || c = '\r'

/-- `str.strip()` on the underlying character list. -/
def stripChars (l : List Char) : List Char :=
  ((l.dropWhile isSpaceChar).reverse.dropWhile isSpaceChar).reverse

/-- `str.strip()`. -/
def stripStr (s : String) : String := ⟨stripChars s.data⟩

/-- `get_text(strip=True)` over a list of sibling nodes: every descendant
text fragment is stripped and the results are concatenated in document
order. -/
def getTextL : List Node → String
  | [] => ""
  | .textNode s :: rest => stripStr s ++ getTextL rest
  | .elem _ _ cs :: rest => getTextL cs ++ getTextL rest

/-- `node.get_text(strip=True)`. -/
def getText : Node → String
  | .textNode s => stripStr s
  | .elem _ _ cs => getTextL cs

/-- `find_all(tag)` over a list of sibling nodes: all elements with the
given tag, in document (pre-)order, descending into nested elements. -/
def findAllL (tag : String) : List Node → List Node
  | [] => []
  | .textNode _ :: rest => findAllL tag rest
  | .elem t h cs :: rest =>
      (if t = tag then [Node.elem t h cs] else []) ++ findAllL tag cs ++ findAllL tag rest

/-- `node.find_all(tag)`: all descendants of `node` with the given tag
(the node itself is not a candidate, matching BeautifulSoup). -/
def findAll (tag : String) : Node → List Node
  | .textNode _ => []
  | .elem _ _ cs => findAllL tag cs

/-- The `href` attribute of an element, if any; `find_all("a", href=True)`
is `findAll "a"` followed by `filterMap nodeHref`. -/
def nodeHref : Node → Option String
  | .textNode _ => none
  | .elem _ h _ => h

/-- Line 89: `[th.get_text(strip=True) for th in table.find_all("th")]`. -/
def tableHeadings (table : Node) : List String :=
  (findAll "th" table).map getText

/-- Lines 92–97: for every `tr` of the table take its `td` cells; rows with
zero `td` cells are discarded; the remaining rows become their stripped
cell texts. -/
def tableData (table : Node) : List (List String) :=
  (findAll "tr" table).filterMap (fun row =>
    match findAll "td" row with
    | [] => none
    | cells => some (cells.map getText))

/-- Lines 105–108: `(row + [""] * (num_headers - len(row)))[:num_headers]`
(the Python list-repeat of a negative count is the empty list, matching
truncated natural subtraction). -/
def fixRow (numHeaders : Nat) (row : List String) : List String :=
  (row ++ List.replicate (numHeaders - row.length) "").take numHeaders

/-- One record of the header-present path: `to_json(orient="records")` of
`DataFrame(fixed_data, columns=headings)` emits, per row, the header names
paired with the coerced cell values, in header order. -/
def headerRecord (headings : List String) (row : List String) :
    List (String × Option String) :=
  headings.zip ((fixRow headings.length row).map some)

/-- The longest row length of the table data. -/
def maxRowLen (data : List (List String)) : Nat :=
  data.foldr (fun r acc => max r.length acc) 0

/-- One record of the header-absent path: `DataFrame(all_data)` pads every
row with NaN up to the longest row length and labels the columns
`0, 1, ...`; `to_json(orient="records")` then emits every column for every
row, NaN becoming `null` (modelled as `none`). -/
def pdRecord (width : Nat) (row : List String) : List (String × Option String) :=
  (List.range width).map (fun i => (toString i, row[i]?))

/-- Lines 103–111: the normalization of one table's data into the list of
records that `to_json(orient="records")` persists. -/
def normalizeTable (headings : List String) (data : List (List String)) :
    List (List (String × Option String)) :=
  if headings = [] then data.map (pdRecord (maxRowLen data))
  else data.map (headerRecord headings)

/-- Python substring test helper: `p` is a prefix of `s`. -/
def prefixOfChars : List Char → List Char → Bool
  | [], _ => true
  | _ :: _, [] => false
  | a :: as, b :: bs => a = b && prefixOfChars as bs

/-- Python substring test helper: `p` occurs contiguously in `s`. -/
def infixOfChars (p : List Char) : List Char → Bool
  | [] => prefixOfChars p []
  | c :: rest => prefixOfChars p (c :: rest) || infixOfChars p rest

/-- Python `keyword in href`: `pat` occurs as a contiguous substring. -/
def containsSub (s pat : String) : Bool := infixOfChars pat.data s.data

/-- Lines 72–79: collect candidate child links.  For every `a` tag with an
`href`, keep it when some keyword occurs in the href, resolve it against
the configured base URL, and keep the result only when it is not already
in the visited set.  `uj` is the external `urljoin` capability. -/
def childLinks (uj : String → String → String) (kw : List String)
    (base_url : String) (visited : List String) (soup : Node) : List String :=
  if kw = [] then []
  else
    ((((findAll "a" soup).filterMap nodeHref).filter
        (fun href => kw.any (fun k => containsSub href k))).map
      (uj base_url)).filter (fun abs => decide (abs ∉ visited))

/-- The shared mutable run state of `main.py`: the global `visited_links`
set, the global artifact counter `count`, the artifacts written so far
(identifier paired with the persisted records), the number of exceptions
that escaped `scrap_table` and were caught by the runner loop, and a
history (`log`) of the URLs that actually entered processing (passed the
line-50 guard). -/
structure CrawlState where
  visited : List String
  count : Nat
  saved : List (Nat × List (List (String × Option String)))
  raised : Nat
  log : List String
deriving Repr, DecidableEq

/-- The state at the start of `run_all_scrapes`: `count = 0` and
`visited_links.clear()`. -/
def initState : CrawlState := ⟨[], 0, [], 0, []⟩

/-- Lines 88–119: the per-page table loop.  For every table: extract
headings and data; skip the table when the data is empty; otherwise
increment the counter under the lock (the identifier is consumed even if
the write then fails) and write the normalized records.  `storeOk id`
models whether the external `to_json` write of artifact `id` succeeds; a
failed write raises, which aborts the loop (`some ()` is the escaped
exception). -/
def processTables (storeOk : Nat → Bool) : List Node → CrawlState → CrawlState × Option Unit
  | [], s => (s, none)
  | t :: ts, s =>
    let headings := tableHeadings t
    let data := tableData t
    if data = [] then processTables storeOk ts s
    else
      let id := s.count + 1
      if storeOk id then
        processTables storeOk ts
          { s with count := id, saved := s.saved ++ [(id, normalizeTable headings data)] }
      else ({ s with count := id }, some ())

/-- Sequential execution of a batch of submitted tasks: each list element
is submitted as a task at depth `d` (recorded in the returned trace) and
then run; the traces of the tasks themselves are appended.  This models
the executor's queue, serialized. -/
def runTasks (step : String → CrawlState → CrawlState × List (String × Nat)) :
    List String → Nat → CrawlState → CrawlState × List (String × Nat)
  | [], _, s => (s, [])
  | l :: ls, d, s =>
    let p := step l s
    let q := runTasks step ls d p.1
    (q.1, (l, d) :: (p.2 ++ q.2))

/-- `scrap_table` (lines 33–142), serialized.  `web` is the composite
fetch-and-parse capability (`none` is a fetch failure, caught by the
`try/except` of lines 60–65); `uj` is `urljoin`; `kw` the keyword list;
`storeOk` the write capability.  The entry guard of line 50 rejects
already-visited URLs and excessive depth before touching any state; the
URL is added to `visited_links` (and to the processing history) before the
fetch.  Child links are collected before the tables are processed; a store
failure raises out of the function (counted in `raised`, as the runner
catches it) and suppresses the child submissions; otherwise children are
submitted at `depth + 1` only when `depth + 1 ≤ max_depth`.  The returned
list is the trace of submitted tasks `(url, depth)`.  `fuel` bounds the
recursion for termination; every run of depth budget `d` is faithfully
modelled by any `fuel > d`. -/
def scrap_rec (web : String → Option Node) (uj : String → String → String)
    (kw : List String) (storeOk : Nat → Bool) (base_url : String) (maxDepth : Nat) :
    Nat → String → Nat → CrawlState → CrawlState × List (String × Nat)
  | 0, _, _, s => (s, [])
  | fuel + 1, url, depth, s =>
    if url ∈ s.visited ∨ maxDepth < depth then (s, [])
    else
      let s1 := { s with visited := url :: s.visited, log := url :: s.log }
      match web (uj base_url url) with
      | none => (s1, [])
      | some soup =>
        let id_links := childLinks uj kw base_url s1.visited soup
        let pr := processTables storeOk (findAll "table" soup) s1
        match pr.2 with
        | some _ => ({ pr.1 with raised := pr.1.raised + 1 }, [])
        | none =>
          if depth + 1 ≤ maxDepth ∧ id_links ≠ [] then
            runTasks
              (fun l t => scrap_rec web uj kw storeOk base_url maxDepth fuel l (depth + 1) t)
              id_links (depth + 1) pr.1
          else (pr.1, [])

/-- `run_all_scrapes` (lines 148–193), serialized: reset the shared state,
submit every seed at depth 0, and drain the recursively produced futures.
The trace records every task ever submitted to the pool. -/
def run_all_scrapes (web : String → Option Node) (uj : String → String → String)
    (kw : List String) (storeOk : Nat → Bool) (base_url : String) (maxDepth : Nat)
    (fuel : Nat) (seeds : List String) : CrawlState × List (String × Nat) :=
  runTasks (fun u s => scrap_rec web uj kw storeOk base_url maxDepth fuel u 0 s)
    seeds 0 initState

/-- Lines 114–116: `with lock: count += 1` followed by using `count` as the
artifact identifier.  The lock serializes the operation, so it is modelled
as an atomic step from the counter value to (new counter value, returned
identifier). -/
def nextArtifactID (c : Nat) : Nat × Nat := (c + 1, c + 1)

/-- The identifiers returned by `n` consecutive `nextArtifactID` calls
starting from counter value `c`. -/
def runCounter : Nat → Nat → List Nat
  | 0, _ => []
  | n + 1, c => (nextArtifactID c).2 :: runCounter n (nextArtifactID c).1

/-- One shared-state event of the unsynchronized visited check of lines
50–52: worker `w` either evaluates `url in visited_links` (a `check`,
recording what it observed) or, having observed `False`, executes
`visited_links.add(url)`.  The two statements are separate atomic steps —
the code takes `lock` only around the counter, not around these lines. -/
inductive RaceEv where
  | check (w : Nat) : RaceEv
  | add (w : Nat) : RaceEv

/-- State of the race model for one fixed URL: whether the URL is in
`visited_links`, and what each worker's membership test observed. -/
structure RaceState where
  inVisited : Bool
  seen : Nat → Option Bool

/-- Initial race state: the URL is unvisited and no worker has tested. -/
def raceInit : RaceState := ⟨false, fun _ => none⟩

/-- Interleaving semantics of lines 50–52 for one URL: a `check` records
the current membership; an `add` is executed only by a worker whose check
observed `False` (a worker that observed `True` returned at line 51). -/
def raceStep (s : RaceState) : RaceEv → RaceState
  | .check w => { s with seen := fun i => if i = w then some s.inVisited else s.seen i }
  | .add w => if s.seen w = some false then { s with inVisited := true } else s

/-- Run a schedule of interleaved events. -/
def runRace (evs : List RaceEv) : RaceState := evs.foldl raceStep raceInit

/-- Worker `w` claimed the URL: its membership test returned `False`, so it
proceeds past line 51 and processes the URL. -/
def claimedURL (evs : List RaceEv) (w : Nat) : Bool :=
  (runRace evs).seen w == some false

theorem fixRow_length (n : Nat) (row : List String) : (fixRow n row).length = n := by
  simp [fixRow]
  omega

theorem fixRow_eq (n : Nat) (row : List String) :
    fixRow n row = row.take n ++ List.replicate (n - row.length) "" := by
  simp [fixRow, List.take_append_eq_append_take, List.take_replicate]

/-- C2: for a raw table with nonempty header list `H` and any data row, the
normalized record for that row is among the table's records, has exactly
`H.length` fields whose keys follow the header order, and its values are
the row truncated to the header count and right-padded with empty
strings. -/
theorem headerRow_coercion_exact (H row : List String) (data : List (List String))
    (hH : H ≠ []) (hrow : row ∈ data) :
    headerRecord H row ∈ normalizeTable H data ∧
    (headerRecord H row).length = H.length ∧
    (headerRecord H row).map Prod.fst = H ∧
    (headerRecord H row).map Prod.snd =
      (row.take H.length ++ List.replicate (H.length - row.length) "").map some := by
  have hlen : ((fixRow H.length row).map some).length = H.length := by
    simp [fixRow_length]
  refine ⟨?_, ?_, ?_, ?_⟩
  · simp only [normalizeTable, if_neg hH]
    exact List.mem_map_of_mem _ hrow
  · simp [headerRecord, fixRow_length]
  · exact List.map_fst_zip _ _ (le_of_eq hlen.symm)
  · rw [headerRecord, List.map_snd_zip _ _ (le_of_eq hlen), fixRow_eq]

/-- C2 witness: the spec's own scenario, headers `["A","B"]` and the short
row `["3"]` of the table `[["1","2"],["3"]]`. -/
theorem headerRow_coercion_exact_witness :
    headerRecord ["A", "B"] ["3"] ∈ normalizeTable ["A", "B"] [["1", "2"], ["3"]] ∧
    (headerRecord ["A", "B"] ["3"]).length = 2 ∧
    (headerRecord ["A", "B"] ["3"]).map Prod.fst = ["A", "B"] ∧
    (headerRecord ["A", "B"] ["3"]).map Prod.snd =
      (["3"].take 2 ++ List.replicate (2 - 1) "").map some :=
  headerRow_coercion_exact ["A", "B"] ["3"] [["1", "2"], ["3"]] (by decide) (by decide)

theorem le_maxRowLen {row : List String} {data : List (List String)}
    (h : row ∈ data) : row.length ≤ maxRowLen data := by
  induction data with
  | nil => cases h
  | cons r rs ih =>
    rcases List.mem_cons.mp h with rfl | hmem
    · simp [maxRowLen, le_max_iff]
    · simp only [maxRowLen, List.foldr_cons, le_max_iff]
      exact Or.inr (ih hmem)

/-- C5 counterexample: the header-absent table with the ragged data
`[["x"], ["a","b"]]` is persisted with record lengths `[2, 2]`, not the raw
row lengths `[1, 2]` — `DataFrame(all_data)` pads the short row with a
null column, so row lengths are not preserved and the artifact is
rectangular, not ragged. -/
theorem noheader_ragged_counterexample :
    (normalizeTable [] [["x"], ["a", "b"]]).map List.length = [2, 2] ∧
    (normalizeTable [] [["x"], ["a", "b"]]).map List.length ≠ [1, 2] := by
  decide

/-- C5 amended: with no header cells, normalization uses stable positional
keys `"0", "1", ...`, but every record is padded by the DataFrame
construction to the length of the longest row of the table (missing cells
becoming null), so the persisted records are rectangular, not ragged; no
cell is dropped. -/
theorem noheader_positional_padded (data : List (List String)) (row : List String)
    (i : Nat) (hrow : row ∈ data) (hi : i < maxRowLen data) :
    normalizeTable [] data = data.map (pdRecord (maxRowLen data)) ∧
    (pdRecord (maxRowLen data) row).length = maxRowLen data ∧
    (pdRecord (maxRowLen data) row).map Prod.fst =
      (List.range (maxRowLen data)).map toString ∧
    (pdRecord (maxRowLen data) row)[i]? = some (toString i, row[i]?) ∧
    row.length ≤ maxRowLen data := by
  refine ⟨by simp [normalizeTable], by simp [pdRecord], ?_, ?_, le_maxRowLen hrow⟩
  · simp [pdRecord, List.map_map]
  · simp [pdRecord, List.getElem?_map, List.getElem?_range hi]

/-- C5 amended witness: the ragged table `[["x"], ["a","b"]]`, its first
row and the padded column index 1. -/
theorem noheader_positional_padded_witness :
    normalizeTable [] [["x"], ["a", "b"]] =
      [["x"], ["a", "b"]].map (pdRecord (maxRowLen [["x"], ["a", "b"]])) ∧
    (pdRecord (maxRowLen [["x"], ["a", "b"]]) ["x"]).length =
      maxRowLen [["x"], ["a", "b"]] ∧
    (pdRecord (maxRowLen [["x"], ["a", "b"]]) ["x"]).map Prod.fst =
      (List.range (maxRowLen [["x"], ["a", "b"]])).map toString ∧
    (pdRecord (maxRowLen [["x"], ["a", "b"]]) ["x"])[1]? =
      some (toString 1, (["x"] : List String)[1]?) ∧
    (["x"] : List String).length ≤ maxRowLen [["x"], ["a", "b"]] :=
  noheader_positional_padded [["x"], ["a", "b"]] ["x"] 1 (by decide) (by decide)

/-- C7: a table whose rows are all discarded (zero `td` cells each) yields
an empty normalization, and the page loop skips it entirely: the state
after processing it is the state of processing the remaining tables alone,
so no artifact is persisted for it and no identifier is consumed. -/
theorem empty_table_no_artifact (storeOk : Nat → Bool) (t : Node) (ts : List Node)
    (s : CrawlState) (h : tableData t = []) :
    normalizeTable (tableHeadings t) (tableData t) = [] ∧
    processTables storeOk (t :: ts) s = processTables storeOk ts s := by
  constructor
  · simp [normalizeTable, h]
  · simp [processTables, h]

/-- C7 witness: a table whose only row holds a `th` cell and no `td`
cells. -/
def thOnlyTable : Node :=
  .elem "table" none [.elem "tr" none [.elem "th" none [.textNode "h"]]]

theorem empty_table_no_artifact_witness :
    normalizeTable (tableHeadings thOnlyTable) (tableData thOnlyTable) = [] ∧
    processTables (fun _ => true) (thOnlyTable :: []) initState =
      processTables (fun _ => true) [] initState :=
  empty_table_no_artifact (fun _ => true) thOnlyTable [] initState
    (by simp [tableData, thOnlyTable, findAll, findAllL])

theorem runCounter_eq_range' (n c : Nat) : runCounter n c = List.range' (c + 1) n := by
  induction n generalizing c with
  | zero => rfl
  | succ n ih =>
    rw [runCounter, ih]
    rfl

/-- C8: `n` serialized calls of the lock-guarded increment starting from
the reset counter return exactly the identifiers `1, 2, ..., n`: the first
identifier is 1, and the returned sequence is strictly increasing and
pairwise distinct. -/
theorem artifact_ids_strictly_increasing (n : Nat) :
    runCounter n 0 = List.range' 1 n ∧
    List.Pairwise (· < ·) (runCounter n 0) ∧
    (runCounter n 0).Nodup := by
  have h := runCounter_eq_range' n 0
  refine ⟨h, ?_, ?_⟩
  · rw [h]
    exact List.pairwise_lt_range' 1 n
  · rw [h]
    exact List.nodup_range' 1 n

/-- C1: the membership test of line 50 and the `add` of line 52 run
without the lock, so the interleaving in which two workers both test the
same unvisited URL before either adds it lets both workers claim the URL
and proceed to process it; a serialized execution of the same two workers
admits only one claim.  This contradicts the claim that `tryClaim`
returns true at most once per URL even when invoked concurrently. -/
theorem visited_check_race_two_claims :
    claimedURL [.check 0, .check 1, .add 0, .add 1] 0 = true ∧
    claimedURL [.check 0, .check 1, .add 0, .add 1] 1 = true ∧
    claimedURL [.check 0, .add 0, .check 1, .add 1] 1 = false := by
  refine ⟨rfl, rfl, rfl⟩

/-- A one-row, one-cell table used in the store-failure scenarios. -/
def tdTableA : Node :=
  .elem "table" none [.elem "tr" none [.elem "td" none [.textNode "a"]]]

/-- A second one-row, one-cell table used in the store-failure scenarios. -/
def tdTableB : Node :=
  .elem "table" none [.elem "tr" none [.elem "td" none [.textNode "b"]]]

/-- C4 counterexample: on a page with two nonempty tables whose first write
fails, the exception leaves the page loop (the error slot `some ()` is the
exception escaping `scrap_table`): the first identifier is consumed, no
artifact is persisted, and in particular the second table — which has data
— is never persisted.  This contradicts both "no exception escapes the
Page Processor" and "a store failure does not abort the persistence of the
remaining tables". -/
theorem store_failure_aborts_page_counterexample :
    processTables (fun _ => false) [tdTableA, tdTableB] initState =
      ({ initState with count := 1 }, some ()) ∧
    tableData tdTableB ≠ [] := by
  constructor
  · simp [processTables, tableData, tableHeadings, tdTableA, findAll, findAllL, initState]
  · simp [tableData, tdTableB, findAll, findAllL]

theorem processTables_store_failure (storeOk : Nat → Bool) (pre : List Node) (t : Node)
    (post : List Node) (s' s1' : CrawlState)
    (hpre : processTables storeOk pre s' = (s1', none))
    (ht : tableData t ≠ []) (hfail : storeOk (s1'.count + 1) = false) :
    processTables storeOk (pre ++ t :: post) s' =
      ({ s1' with count := s1'.count + 1 }, some ()) := by
  induction pre generalizing s' with
  | nil =>
    injection hpre with h1 h2
    subst h1
    simp only [List.nil_append, processTables, if_neg ht]
    rw [if_neg (by simp [hfail])]
  | cons p pre' ih =>
    simp only [processTables, List.cons_append] at hpre ⊢
    by_cases hp : tableData p = []
    · rw [if_pos hp] at hpre ⊢
      exact ih _ hpre
    · rw [if_neg hp] at hpre ⊢
      by_cases hst : storeOk (s'.count + 1) = true
      · rw [if_pos hst] at hpre ⊢
        exact ih _ hpre
      · rw [if_neg hst] at hpre
        cases hpre

/-- C4 amended: only the fetch is guarded by `try/except`.  A fetch
failure is converted inside `scrap_table` into an empty result (the URL is
still marked visited; nothing is raised, persisted or submitted).  A store
failure, however, raises out of the page loop: whatever prefix of tables
was already persisted stays, the failing table consumes its identifier,
and no later table of the page is persisted; the exception escapes
`scrap_table` and is caught by the runner's result loop, so the run
continues. -/
theorem fetch_caught_store_aborts
    (web : String → Option Node) (uj : String → String → String) (kw : List String)
    (storeOk : Nat → Bool) (base : String) (maxD fuel depth : Nat) (url : String)
    (s : CrawlState) (pre : List Node) (t : Node) (post : List Node) (s' s1' : CrawlState)
    (hnv : url ∉ s.visited) (hd : depth ≤ maxD) (hw : web (uj base url) = none)
    (hpre : processTables storeOk pre s' = (s1', none))
    (ht : tableData t ≠ []) (hfail : storeOk (s1'.count + 1) = false) :
    scrap_rec web uj kw storeOk base maxD (fuel + 1) url depth s =
      ({ s with visited := url :: s.visited, log := url :: s.log }, []) ∧
    processTables storeOk (pre ++ t :: post) s' =
      ({ s1' with count := s1'.count + 1 }, some ()) := by
  refine ⟨?_, processTables_store_failure storeOk pre t post s' s1' hpre ht hfail⟩
  have hguard : ¬(url ∈ s.visited ∨ maxD < depth) := by
    push_neg
    exact ⟨hnv, hd⟩
  simp only [scrap_rec]
  rw [if_neg hguard, hw]

/-- C4 amended witness: an unreachable URL (fetch always fails) and, for
the store part, a failing write of the table `tdTableA` with no preceding
tables. -/
theorem fetch_caught_store_aborts_witness :
    scrap_rec (fun _ => none) (fun b u => b ++ u) [] (fun _ => false) "b" 1 1 "u" 0
        initState = (⟨["u"], 0, [], 0, ["u"]⟩, []) ∧
    processTables (fun _ => false) ([] ++ tdTableA :: []) initState =
      (⟨[], 1, [], 0, []⟩, some ()) :=
  fetch_caught_store_aborts (fun _ => none) (fun b u => b ++ u) [] (fun _ => false)
    "b" 1 0 0 "u" initState [] tdTableA [] initState initState
    (by decide) (by decide) rfl rfl
    (by simp [tableData, tdTableA, findAll, findAllL]) rfl

/-- A page whose only hyperlink is a keyword-qualifying href. -/
def selfLinkPage : Node := .elem "html" none [.elem "a" (some "x/g/") []]

/-- C6 counterexample: a hyperlink whose href contains a configured
keyword and resolves (here the href is already absolute, so resolution
returns it unchanged) to a URL that is already in the visited set — as the
current page's own URL always is, having been added at line 52 before the
links are scanned — does NOT appear in the returned child list: lines
78–79 filter the collected links against `visited_links`, so membership is
not equivalent to keyword qualification and the Page Processor does
perform visited-set filtering. -/
theorem childlinks_visited_filter_counterexample :
    childLinks (fun _ h => h) ["/g/"] "b" ["x/g/"] selfLinkPage = [] ∧
    containsSub "x/g/" "/g/" = true ∧
    (fun (_ h : String) => h) "b" "x/g/" = "x/g/" := by
  refine ⟨?_, by decide, rfl⟩
  simp [childLinks, selfLinkPage, findAll, findAllL, nodeHref]

/-- C6 amended: a hyperlink appears in the returned child list iff its
href contains at least one configured keyword substring AND its resolution
against the configured base URL is not already in the visited set at scan
time (in particular the page's own URL, added to the visited set before
the scan, is filtered out); links passing both tests are kept with
multiplicity, i.e. duplicates inside one page are not collapsed. -/
theorem childlinks_membership_iff (uj : String → String → String) (kw : List String)
    (base : String) (visited : List String) (soup : Node) (l : String) :
    l ∈ childLinks uj kw base visited soup ↔
      ((∃ href ∈ (findAll "a" soup).filterMap nodeHref,
          (kw.any fun k => containsSub href k) = true ∧ uj base href = l) ∧
        l ∉ visited) := by
  by_cases hkw : kw = []
  · subst hkw
    simp [childLinks]
  · simp only [childLinks, if_neg hkw, List.mem_filter, List.mem_map, decide_eq_true_eq]
    tauto

theorem headerRecord_length (H row : List String) :
    (headerRecord H row).length = H.length := by
  simp [headerRecord, fixRow_length]

/-- Spec-side reading of the header extraction: the stripped text of every
`tag` cell found anywhere below the given sibling nodes — body rows and
nested tables included — in document order. -/
def cellTexts (tag : String) : List Node → List String
  | [] => []
  | .textNode _ :: rest => cellTexts tag rest
  | .elem t h cs :: rest =>
      (if t = tag then [getText (.elem t h cs)] else []) ++
        cellTexts tag cs ++ cellTexts tag rest

/-- Spec-side reading for C10: the text of every `th` cell found anywhere
in the node, in document order. -/
def thTextsOf : Node → List String
  | .textNode _ => []
  | .elem _ _ cs => cellTexts "th" cs

theorem map_getText_findAllL (tag : String) : (cs : List Node) →
    (findAllL tag cs).map getText = cellTexts tag cs
  | [] => by simp [findAllL, cellTexts]
  | .textNode s :: rest => by
      simp [findAllL, cellTexts, map_getText_findAllL tag rest]
  | .elem t h cs :: rest => by
      simp only [findAllL, cellTexts, List.map_append,
        map_getText_findAllL tag cs, map_getText_findAllL tag rest,
        apply_ite (List.map getText), List.map_cons, List.map_nil]

/-- C10: the header list of a table is the stripped text of every `th`
cell anywhere in the table in document order (not only the first row: body
rows and nested tables contribute), and a table with at least one such
`th` takes the header-coercion path, every record being coerced to width
equal to the total `th` count. -/
theorem headings_all_th_document_order (t : Node) (data : List (List String))
    (row : List String) (hth : 0 < (thTextsOf t).length) :
    tableHeadings t = thTextsOf t ∧
    normalizeTable (tableHeadings t) data = data.map (headerRecord (tableHeadings t)) ∧
    (headerRecord (tableHeadings t) row).length = (thTextsOf t).length := by
  have heq : tableHeadings t = thTextsOf t := by
    cases t with
    | textNode s => simp [tableHeadings, findAll, thTextsOf]
    | elem tg h cs => simp [tableHeadings, findAll, thTextsOf, map_getText_findAllL]
  have hne : tableHeadings t ≠ [] := by
    rw [heq]
    intro hcon
    rw [hcon] at hth
    simp at hth
  refine ⟨heq, by simp [normalizeTable, hne], ?_⟩
  rw [headerRecord_length, heq]

/-- C10 witness: a table whose `th` cells sit in a body row (after a data
row) and inside a nested table. -/
def bodyThTable : Node :=
  .elem "table" none [
    .elem "tr" none [.elem "td" none [.textNode "x"]],
    .elem "tr" none [.elem "th" none [.textNode "HA"]],
    .elem "table" none [.elem "tr" none [.elem "th" none [.textNode "HB"]]]]

theorem bodyThTable_headings : tableHeadings bodyThTable = ["HA", "HB"] := by
  simp [tableHeadings, bodyThTable, findAll, findAllL, getText, getTextL,
    stripStr, stripChars, isSpaceChar]

theorem headings_all_th_document_order_witness :
    tableHeadings bodyThTable = thTextsOf bodyThTable ∧
    normalizeTable (tableHeadings bodyThTable) [["x"]] =
      [["x"]].map (headerRecord (tableHeadings bodyThTable)) ∧
    (headerRecord (tableHeadings bodyThTable) ["x"]).length =
      (thTextsOf bodyThTable).length :=
  headings_all_th_document_order bodyThTable [["x"]] ["x"]
    (by simp [thTextsOf, bodyThTable, cellTexts, getText, getTextL,
      stripStr, stripChars, isSpaceChar])

theorem runTasks_trace_mem
    {step : String → CrawlState → CrawlState × List (String × Nat)}
    {ls : List String} {d : Nat} {s : CrawlState} {t : String × Nat}
    (h : t ∈ (runTasks step ls d s).2) :
    (∃ l ∈ ls, t = (l, d)) ∨ ∃ l ∈ ls, ∃ s', t ∈ (step l s').2 := by
  induction ls generalizing s with
  | nil => simp [runTasks] at h
  | cons l ls ih =>
    simp only [runTasks, List.mem_cons, List.mem_append] at h
    rcases h with rfl | h | h
    · exact Or.inl ⟨l, List.mem_cons_self l ls, rfl⟩
    · exact Or.inr ⟨l, List.mem_cons_self l ls, s, h⟩
    · rcases ih h with ⟨m, hm, ht⟩ | ⟨m, hm, s', ht⟩
      · exact Or.inl ⟨m, List.mem_cons_of_mem l hm, ht⟩
      · exact Or.inr ⟨m, List.mem_cons_of_mem l hm, s', ht⟩

theorem scrap_trace_le (web : String → Option Node) (uj : String → String → String)
    (kw : List String) (storeOk : Nat → Bool) (base : String) (maxD : Nat) :
    ∀ (fuel : Nat) (url : String) (depth : Nat) (s : CrawlState),
    ∀ t ∈ (scrap_rec web uj kw storeOk base maxD fuel url depth s).2, t.2 ≤ maxD := by
  intro fuel
  induction fuel with
  | zero =>
    intro url depth s t ht
    simp [scrap_rec] at ht
  | succ fuel ih =>
    intro url depth s t ht
    rw [scrap_rec] at ht
    by_cases hg : url ∈ s.visited ∨ maxD < depth
    · rw [if_pos hg] at ht
      simp at ht
    · rw [if_neg hg] at ht
      cases hweb : web (uj base url) with
      | none =>
        rw [hweb] at ht
        simp at ht
      | some soup =>
        rw [hweb] at ht
        simp only at ht
        cases herr : (processTables storeOk (findAll "table" soup)
            { s with visited := url :: s.visited, log := url :: s.log }).2 with
        | some e =>
          rw [herr] at ht
          simp at ht
        | none =>
          rw [herr] at ht
          simp only at ht
          by_cases hif : depth + 1 ≤ maxD ∧
              childLinks uj kw base (url :: s.visited) soup ≠ []
          · rw [if_pos hif] at ht
            rcases runTasks_trace_mem ht with ⟨m, hm, rfl⟩ | ⟨m, hm, s', ht'⟩
            · exact hif.1
            · exact ih m (depth + 1) s' t ht'
          · rw [if_neg hif] at ht
            simp at ht

/-- C3: every task in the submission trace of a crawl — the child tasks of
any `scrap_table` call, and every task of a whole `run_all_scrapes` run
(seeds are submitted at depth 0) — has depth at most `maxDepth`; and a
task entered with depth greater than `maxDepth` is rejected by the entry
guard before doing any work: the state is unchanged and no children are
returned. -/
theorem no_task_beyond_maxDepth (web : String → Option Node)
    (uj : String → String → String) (kw : List String) (storeOk : Nat → Bool)
    (base : String) (maxD fuel depth : Nat) (url : String) (s : CrawlState)
    (seeds : List String) :
    (∀ t ∈ (scrap_rec web uj kw storeOk base maxD fuel url depth s).2, t.2 ≤ maxD) ∧
    (∀ t ∈ (run_all_scrapes web uj kw storeOk base maxD fuel seeds).2, t.2 ≤ maxD) ∧
    (maxD < depth →
      scrap_rec web uj kw storeOk base maxD fuel url depth s = (s, [])) := by
  refine ⟨scrap_trace_le web uj kw storeOk base maxD fuel url depth s, ?_, ?_⟩
  · intro t ht
    rcases runTasks_trace_mem ht with ⟨m, hm, rfl⟩ | ⟨m, hm, s', ht'⟩
    · exact Nat.zero_le maxD
    · exact scrap_trace_le web uj kw storeOk base maxD fuel m 0 s' t ht'
  · intro hlt
    cases fuel with
    | zero => rfl
    | succ fuel =>
      rw [scrap_rec, if_pos (Or.inr hlt)]

/-- C3 witness: a task entered at depth 2 with `maxDepth = 1` does nothing
and returns no children. -/
theorem no_task_beyond_maxDepth_witness :
    scrap_rec (fun _ => none) (fun b u => b ++ u) [] (fun _ => true) "b" 1 3 "u" 2
      initState = (initState, []) :=
  (no_task_beyond_maxDepth (fun _ => none) (fun b u => b ++ u) [] (fun _ => true)
    "b" 1 3 2 "u" initState []).2.2 (by decide)

/-- Run invariant: the processing history has no duplicates, every
processed URL is in the visited set, every assigned artifact identifier is
bounded by the counter, and the assigned identifiers are pairwise
distinct. -/
def RunInv (s : CrawlState) : Prop :=
  s.log.Nodup ∧ (∀ u ∈ s.log, u ∈ s.visited) ∧
    (∀ i ∈ s.saved.map Prod.fst, i ≤ s.count) ∧ (s.saved.map Prod.fst).Nodup

/-- Evolution of the shared state across any piece of the run: the visited
set and the processing history only grow, the counter never decreases, and
the invariant is preserved. -/
def Evol (s s' : CrawlState) : Prop :=
  (∀ u ∈ s.visited, u ∈ s'.visited) ∧ (∀ u ∈ s.log, u ∈ s'.log) ∧
    s.count ≤ s'.count ∧ (RunInv s → RunInv s')

theorem Evol_refl (s : CrawlState) : Evol s s :=
  ⟨fun _ h => h, fun _ h => h, le_refl _, id⟩

theorem Evol_trans {a b c : CrawlState} (h1 : Evol a b) (h2 : Evol b c) : Evol a c :=
  ⟨fun u hu => h2.1 u (h1.1 u hu), fun u hu => h2.2.1 u (h1.2.1 u hu),
    le_trans h1.2.2.1 h2.2.2.1, fun hI => h2.2.2.2 (h1.2.2.2 hI)⟩

theorem Inv_save (s : CrawlState) (r : List (List (String × Option String)))
    (hI : RunInv s) :
    RunInv { s with count := s.count + 1, saved := s.saved ++ [(s.count + 1, r)] } := by
  obtain ⟨h1, h2, h3, h4⟩ := hI
  refine ⟨h1, h2, ?_, ?_⟩
  · intro i hi
    simp only [List.map_append, List.map_cons, List.map_nil, List.mem_append,
      List.mem_singleton] at hi
    rcases hi with hi | rfl
    · exact le_trans (h3 i hi) (Nat.le_succ _)
    · exact le_refl _
  · simp only [List.map_append, List.map_cons, List.map_nil]
    refine List.Nodup.append h4 (List.nodup_singleton _) ?_
    intro i hi hi'
    rw [List.mem_singleton] at hi'
    subst hi'
    exact absurd (h3 _ hi) (by omega)

theorem Inv_count (s : CrawlState) (hI : RunInv s) : RunInv { s with count := s.count + 1 } := by
  obtain ⟨h1, h2, h3, h4⟩ := hI
  exact ⟨h1, h2, fun i hi => le_trans (h3 i hi) (Nat.le_succ _), h4⟩

theorem Inv_enter (s : CrawlState) (url : String) (hnv : url ∉ s.visited) (hI : RunInv s) :
    RunInv { s with visited := url :: s.visited, log := url :: s.log } := by
  obtain ⟨h1, h2, h3, h4⟩ := hI
  refine ⟨?_, ?_, h3, h4⟩
  · exact List.Nodup.cons (fun hmem => hnv (h2 url hmem)) h1
  · intro u hu
    rcases List.mem_cons.mp hu with rfl | hu
    · exact List.mem_cons_self u _
    · exact List.mem_cons_of_mem _ (h2 u hu)

theorem processTables_evol (storeOk : Nat → Bool) :
    ∀ (ts : List Node) (s : CrawlState),
    (processTables storeOk ts s).1.visited = s.visited ∧
    (processTables storeOk ts s).1.log = s.log ∧
    s.count ≤ (processTables storeOk ts s).1.count ∧
    (RunInv s → RunInv (processTables storeOk ts s).1) := by
  intro ts
  induction ts with
  | nil => exact fun s => ⟨rfl, rfl, le_refl _, id⟩
  | cons t ts ih =>
    intro s
    by_cases hd : tableData t = []
    · simp only [processTables, if_pos hd]
      exact ih s
    · simp only [processTables, if_neg hd]
      by_cases hst : storeOk (s.count + 1) = true
      · rw [if_pos hst]
        have key := ih { s with count := s.count + 1, saved := s.saved ++ [(s.count + 1, normalizeTable (tableHeadings t) (tableData t))] }
        exact ⟨key.1, key.2.1, le_trans (Nat.le_succ _) key.2.2.1, fun hI => key.2.2.2 (Inv_save s _ hI)⟩
      · rw [if_neg hst]
        exact ⟨rfl, rfl, Nat.le_succ _, Inv_count s⟩

theorem runTasks_evol {step : String → CrawlState → CrawlState × List (String × Nat)}
    (hstep : ∀ l t, Evol t (step l t).1) :
    ∀ (ls : List String) (d : Nat) (s : CrawlState), Evol s (runTasks step ls d s).1 := by
  intro ls
  induction ls with
  | nil => exact fun d s => Evol_refl s
  | cons l ls ih =>
    intro d s
    simp only [runTasks]
    exact Evol_trans (hstep l s) (ih d _)

theorem scrap_evol (web : String → Option Node) (uj : String → String → String)
    (kw : List String) (storeOk : Nat → Bool) (base : String) (maxD : Nat) :
    ∀ (fuel : Nat) (url : String) (depth : Nat) (s : CrawlState),
    Evol s (scrap_rec web uj kw storeOk base maxD fuel url depth s).1 := by
  intro fuel
  induction fuel with
  | zero => exact fun url depth s => Evol_refl s
  | succ fuel ih =>
    intro url depth s
    rw [scrap_rec]
    by_cases hg : url ∈ s.visited ∨ maxD < depth
    · rw [if_pos hg]
      exact Evol_refl s
    · rw [if_neg hg]
      push_neg at hg
      have hEs1 : Evol s { s with visited := url :: s.visited, log := url :: s.log } :=
        ⟨fun u hu => List.mem_cons_of_mem _ hu, fun u hu => List.mem_cons_of_mem _ hu,
          le_refl _, Inv_enter s url hg.1⟩
      cases hweb : web (uj base url) with
      | none =>
        exact hEs1
      | some soup =>
        dsimp only
        obtain ⟨e1, e2, e3, e4⟩ := processTables_evol storeOk (findAll "table" soup)
          { s with visited := url :: s.visited, log := url :: s.log }
        have hEpt : Evol s (processTables storeOk (findAll "table" soup)
            { s with visited := url :: s.visited, log := url :: s.log }).1 := by
          refine Evol_trans hEs1 ⟨?_, ?_, e3, e4⟩
          · rw [e1]
            exact fun u hu => hu
          · rw [e2]
            exact fun u hu => hu
        cases herr : (processTables storeOk (findAll "table" soup)
            { s with visited := url :: s.visited, log := url :: s.log }).2 with
        | some e =>
          exact Evol_trans hEpt ⟨fun u hu => hu, fun u hu => hu, le_refl _, id⟩
        | none =>
          by_cases hif : depth + 1 ≤ maxD ∧
              childLinks uj kw base (url :: s.visited) soup ≠ []
          · rw [if_pos hif]
            exact Evol_trans hEpt
              (runTasks_evol (fun l t => ih l (depth + 1) t) _ (depth + 1) _)
          · rw [if_neg hif]
            exact hEpt

/-- C9: all category crawls of one run share the one visited set and the
one artifact counter: over a whole `run_all_scrapes` run — the three seeds
of the reference configuration or any other seed list — no URL is ever
processed twice (the processing history is duplicate-free, so a URL
claimed while crawling one category is never processed again under any
other category), and the artifact identifiers assigned across all
categories are pairwise distinct. -/
theorem run_shared_ledger_unique (web : String → Option Node)
    (uj : String → String → String) (kw : List String) (storeOk : Nat → Bool)
    (base : String) (maxD fuel : Nat) (seeds : List String) :
    (run_all_scrapes web uj kw storeOk base maxD fuel seeds).1.log.Nodup ∧
    ((run_all_scrapes web uj kw storeOk base maxD fuel seeds).1.saved.map
      Prod.fst).Nodup := by
  have h := runTasks_evol
    (fun l t => scrap_evol web uj kw storeOk base maxD fuel l 0 t) seeds 0 initState
  have hInv : RunInv initState := by
    refine ⟨List.nodup_nil, ?_, ?_, ?_⟩ <;> simp [initState]
  have hfin := h.2.2.2 hInv
  exact ⟨hfin.1, hfin.2.2.2⟩
